import Mathlib

/-!
Shallow embedding of the airwire real-time audio transport pipeline
(src/audio.rs and src/main.rs): the PCM sample codec, the wire packet
framing, the sequence duplicate/rollover filter, the jitter buffer and
the transmit-side frame accumulator.

Modelling conventions: `u8` bytes are `Nat` values below 256, `f32`
samples are exact rationals, `i64` is `Int` (Rust `i64` arithmetic in
the modelled code never overflows, see the counter update below, so
plain `Int` is faithful), `Vec<T>` is `List T`.
-/

namespace Airwire

/-- Wire bytes (`u8`), modelled as `Nat`. -/
abbrev Byte := Nat

/-- `SIGNATURE_SIZE` constant from src/main.rs. -/
def SIGNATURE_SIZE : Nat := 2

/-- `ID_SIZE` constant from src/main.rs. -/
def ID_SIZE : Nat := 8

/-- `add_signature` from src/main.rs: pushes the two magic bytes 13 and 37
(0x0D 0x25) onto the packet buffer. -/
def add_signature (buffer : List Byte) : List Byte :=
  buffer ++ [13, 37]

/-- Big-endian two's-complement byte encoding of an `i64`, the semantics of
Rust's `i64::to_be_bytes` used by `add_packet_id` in src/main.rs. -/
def i64ToBeBytes (id : Int) : List Byte :=
  let u : Nat := (id % (2 ^ 64 : Int)).toNat
  [u / 2 ^ 56 % 256, u / 2 ^ 48 % 256, u / 2 ^ 40 % 256, u / 2 ^ 32 % 256,
   u / 2 ^ 24 % 256, u / 2 ^ 16 % 256, u / 2 ^ 8 % 256, u % 256]

/-- `add_packet_id` from src/main.rs: appends the sequence id as 8
big-endian bytes. -/
def add_packet_id (buffer : List Byte) (id : Int) : List Byte :=
  buffer ++ i64ToBeBytes id

/-- `byteorder::BigEndian::read_i64` on the first 8 bytes of a slice:
reassemble the unsigned value and reinterpret as two's complement. -/
def read_i64_be (bytes : List Byte) : Int :=
  let u : Nat :=
    bytes.getD 0 0 * 2 ^ 56 + bytes.getD 1 0 * 2 ^ 48 + bytes.getD 2 0 * 2 ^ 40 +
    bytes.getD 3 0 * 2 ^ 32 + bytes.getD 4 0 * 2 ^ 24 + bytes.getD 5 0 * 2 ^ 16 +
    bytes.getD 6 0 * 2 ^ 8 + bytes.getD 7 0
  if u < 2 ^ 63 then (u : Int) else (u : Int) - 2 ^ 64

/-- Truncation toward zero of a rational: the semantics of Rust's `as i16`
cast from a float for values already in the representable range. -/
def truncQ (q : ℚ) : Int :=
  if 0 ≤ q then ⌊q⌋ else ⌈q⌉

/-- Per-sample step of `PCMCodec::encode` (src/audio.rs lines 43-44):
`sample.max(-1.0).min(1.0) * 32767.0` then cast `as i16`. -/
def encodeSampleI16 (sample : ℚ) : Int :=
  truncQ (min (max sample (-1)) 1 * 32767)

/-- Little-endian two's-complement bytes of an `i16` value, the effect of
`WriteBytesExt::write_i16::<LittleEndian>` on the payload. -/
def i16ToLeBytes (i : Int) : List Byte :=
  let u : Nat := (i % (2 ^ 16 : Int)).toNat
  [u % 256, u / 256]

/-- `PCMCodec::encode` from src/audio.rs lines 40-51: iterates over the
input samples, clamping, scaling by 32767, truncating to `i16` and writing
two little-endian bytes per sample. `write_i16` on a `Vec<u8>` goes through
the `io::Write` instance, which appends to the existing vector contents;
the function always returns `Ok(())`, modelled by returning the final
output vector. -/
def PCMencode (input : List ℚ) (output : List Byte) : List Byte :=
  input.foldl (fun acc sample => acc ++ i16ToLeBytes (encodeSampleI16 sample)) output

/-- `byteorder::LittleEndian::read_i16` applied at byte offset `2*i2` of the
input, as in src/audio.rs line 63. -/
def readI16LE (input : List Byte) (i2 : Nat) : Int :=
  let u : Nat := input.getD (2 * i2) 0 % 256 + 256 * (input.getD (2 * i2 + 1) 0 % 256)
  if u < 2 ^ 15 then (u : Int) else (u : Int) - 2 ^ 16

/-- Value stored for sample `i2` by `PCMCodec::decode` (src/audio.rs line 64):
`(sample_i16 as f32 / 32767.0).min(1.0).max(-1.0)`. -/
def decodeSampleAt (input : List Byte) (i2 : Nat) : ℚ :=
  max (min ((readI16LE input i2 : ℚ) / 32767) 1) (-1)

/-- `Vec::resize(n, v)`: truncate when shrinking, pad with `v` when growing. -/
def vecResize (l : List ℚ) (n : Nat) (v : ℚ) : List ℚ :=
  if n ≤ l.length then l.take n else l ++ List.replicate (n - l.length) v

/-- `PCMCodec::decode` from src/audio.rs lines 55-67: resize the output to
`input.len() / 2` when its length differs, then overwrite every slot with
the decoded little-endian sample; the body has no error path and ends in
`Ok(())`. -/
def PCMdecode (input : List Byte) (output : List ℚ) : Except String (List ℚ) :=
  let estimated_output_length := input.length / 2
  let out0 := if output.length ≠ estimated_output_length
              then vecResize output estimated_output_length 0
              else output
  Except.ok ((List.range (input.length / 2)).foldl
    (fun acc i2 => acc.set i2 (decodeSampleAt input i2)) out0)

/-- One step of the receive-loop duplicate/stale filter
(src/main.rs lines 383-397): returns whether the id is accepted together
with the updated `last_recv_id`. -/
def seqStep (last_recv_id : Option Int) (packet_id : Int) : Bool × Option Int :=
  match last_recv_id with
  | none => (true, some packet_id)
  | some last =>
    if 0 ≤ last ∧ packet_id < 0 then (true, some packet_id)
    else if last < packet_id then (true, some packet_id)
    else (false, some last)

/-- Runs the filter over a list of incoming ids; `true` iff every id is
accepted. -/
def acceptsAll (last_recv_id : Option Int) : List Int → Bool
  | [] => true
  | x :: xs =>
    let r := seqStep last_recv_id x
    r.1 && acceptsAll r.2 xs

/-- Filter state after processing a list of incoming ids. -/
def seqStateAfter (last_recv_id : Option Int) : List Int → Option Int
  | [] => last_recv_id
  | x :: xs => seqStateAfter (seqStep last_recv_id x).2 xs

/-- Largest `i64` value, `i64::MAX`. -/
def i64MaxVal : Int := 2 ^ 63 - 1

/-- Sender counter update after a successful transmission
(src/main.rs lines 279-285): increment, rolling to -2 past `MAX - 16`. -/
def nextIdUpdate (next_packet_id : Int) : Int :=
  let n := next_packet_id + 1
  if i64MaxVal - 16 < n then -2 else n

/-- Sequence ids embedded in the next `n` transmitted packets when the
counter currently holds `c` (the id is written before the update). -/
def idsFrom (c : Int) : Nat → List Int
  | 0 => []
  | n + 1 => c :: idsFrom (nextIdUpdate c) n

/-- Counter value after `n` transmissions starting from `c`. -/
def counterAfter (c : Int) : Nat → Int
  | 0 => c
  | n + 1 => counterAfter (nextIdUpdate c) n

/-- State owned by the transmit capture callback (src/main.rs lines
235-241): the rolling sample accumulator, its write cursor, and the number
of encode-and-send actions performed (the packet bytes themselves are
modelled by `PCMencode`/`buildPacket`). -/
structure TxState where
  input_buffer : List ℚ
  buffer_pos : Nat
  sends : Nat
deriving DecidableEq, Repr

/-- Destination index of one captured sample (src/main.rs lines 253-259):
the natural cursor position, or its even/odd neighbour under stereo swap. -/
def swapIndex (stereo_swap : Bool) (buffer_pos : Nat) : Nat :=
  match stereo_swap with
  | false => buffer_pos
  | true =>
    match buffer_pos % 2 with
    | 0 => buffer_pos + 1
    | _ => buffer_pos - 1

/-- Body of the per-sample transmit loop (src/main.rs lines 248-297): write
the sample into the accumulator and advance the cursor while below the
frame length; when the cursor reaches the frame length, encode and send
(PCM encode never fails) and rewind the cursor to zero. -/
def txProcessSample (sample_frame_size : Nat) (stereo_swap : Bool)
    (st : TxState) (sample : ℚ) : TxState :=
  let st1 :=
    if st.buffer_pos < sample_frame_size then
      { st with
        input_buffer := st.input_buffer.set (swapIndex stereo_swap st.buffer_pos) sample
        buffer_pos := st.buffer_pos + 1 }
    else st
  if sample_frame_size ≤ st1.buffer_pos then
    { st1 with sends := st1.sends + 1, buffer_pos := 0 }
  else st1

/-- One invocation of the transmit input callback on a batch of captured
interleaved samples. -/
def txProcessBatch (sample_frame_size : Nat) (stereo_swap : Bool)
    (st : TxState) (data : List ℚ) : TxState :=
  data.foldl (txProcessSample sample_frame_size stereo_swap) st

/-- Jitter-buffer push without stereo swap (src/main.rs line 416):
`audio_buffer.extend(decode_buffer.iter())`. -/
def pushSamples (audio_buffer : List ℚ) (decode_buffer : List ℚ) : List ℚ :=
  audio_buffer ++ decode_buffer

/-- Jitter-buffer push with stereo swap (src/main.rs lines 411-414): for
each `i` below `decode_buffer.len() / 2`, push sample `2*i+1` then sample
`2*i`. -/
def pushSamplesSwapped (audio_buffer : List ℚ) (decode_buffer : List ℚ) : List ℚ :=
  (List.range (decode_buffer.length / 2)).foldl
    (fun acc i => acc ++ [decode_buffer.getD (2 * i + 1) 0] ++ [decode_buffer.getD (2 * i) 0])
    audio_buffer

/-- Consecutive-pair swap of a sample list, the pairwise description of the
stereo-swap push: each pair `(2k, 2k+1)` appears in swapped order and a
trailing unpaired sample is dropped. -/
def pairSwap : List ℚ → List ℚ
  | a :: b :: rest => b :: a :: pairSwap rest
  | _ => []

/-- The playback output callback's drain of the jitter buffer
(src/main.rs lines 441-450): pop from the front into each destination slot,
writing silence (0.0) on underrun. Returns the samples written to the
destination, the remaining queue, and the count of real samples supplied
(`filled`). -/
def popInto : List ℚ → Nat → List ℚ × List ℚ × Nat
  | q, 0 => ([], q, 0)
  | [], n + 1 =>
    let r := popInto [] n
    (0 :: r.1, r.2.1, r.2.2)
  | x :: xs, n + 1 =>
    let r := popInto xs n
    (x :: r.1, r.2.1, r.2.2 + 1)

/-- State of the receive pipeline that survives across loop iterations:
the duplicate filter's last accepted id, the reused decode buffer, and the
shared jitter buffer. -/
structure RxState where
  last_recv_id : Option Int
  decode_buffer : List ℚ
  audio_buffer : List ℚ
deriving DecidableEq, Repr

/-- One iteration of the receive-loop body on a successfully received
datagram (src/main.rs lines 376-427), with the PCM decoder: check the two
magic bytes; when pacing is enabled read the big-endian id at offset 2 and
run the duplicate filter (a rejected id skips the rest of the iteration);
decode the payload slice `receive_buffer[data_offset..recv_bytes]`; on
decode success push the samples into the jitter buffer, applying stereo
swap when configured. -/
def recvStep (pacer stereo_swap : Bool) (st : RxState)
    (receive_buffer : List Byte) (recv_bytes : Nat) : RxState :=
  if receive_buffer.getD 0 0 = 13 ∧ receive_buffer.getD 1 0 = 37 then
    let idCheck : Bool × Option Int :=
      if pacer then
        seqStep st.last_recv_id (read_i64_be (receive_buffer.drop SIGNATURE_SIZE))
      else (true, st.last_recv_id)
    if idCheck.1 then
      let data_offset := if pacer then SIGNATURE_SIZE + ID_SIZE else SIGNATURE_SIZE
      match PCMdecode ((receive_buffer.take recv_bytes).drop data_offset) st.decode_buffer with
      | Except.ok decoded =>
        { last_recv_id := idCheck.2
          decode_buffer := decoded
          audio_buffer :=
            if stereo_swap then pushSamplesSwapped st.audio_buffer decoded
            else pushSamples st.audio_buffer decoded }
      | Except.error _ => { st with last_recv_id := idCheck.2 }
    else { st with last_recv_id := idCheck.2 }
  else st

/-- One wire packet as assembled by the transmit callback with pacing
enabled (src/main.rs lines 239, 269-272): the signature bytes, the 8-byte
big-endian id, then the encoded payload. -/
def buildPacket (id : Int) (payload : List Byte) : List Byte :=
  add_packet_id (add_signature []) id ++ payload

/-- The receive side's parse of a datagram with pacing enabled
(src/main.rs lines 378-403): recognize the magic bytes, read the
big-endian signed 64-bit id at offset 2, and take
`receive_buffer[SIGNATURE_SIZE + ID_SIZE..recv_bytes]` as the payload. -/
def parsePacket (receive_buffer : List Byte) (recv_bytes : Nat) :
    Option (Int × List Byte) :=
  if receive_buffer.getD 0 0 = 13 ∧ receive_buffer.getD 1 0 = 37 then
    some (read_i64_be (receive_buffer.drop SIGNATURE_SIZE),
          (receive_buffer.take recv_bytes).drop (SIGNATURE_SIZE + ID_SIZE))
  else none

/-! ## Theorems -/

theorem popInto_eq (q : List ℚ) (n : Nat) :
    popInto q n = (q.take n ++ List.replicate (n - q.length) 0, q.drop n, min n q.length) := by
  induction n generalizing q with
  | zero => simp [popInto]
  | succ n ih =>
    cases q with
    | nil => simp [popInto, ih, List.replicate_succ]
    | cons x xs =>
      simp [popInto, ih xs, Nat.succ_min_succ]

theorem seqStep_accept_of_lt (l x : Int) (h : l < x) :
    seqStep (some l) x = (true, some x) := by
  simp only [seqStep]
  split_ifs <;> rfl

theorem acceptsAll_of_forall_lt :
    ∀ (xs : List Int) (l : Int), (∀ y ∈ xs, l < y) → List.Pairwise (· < ·) xs →
      acceptsAll (some l) xs = true := by
  intro xs
  induction xs with
  | nil => intro l _ _; rfl
  | cons x rest ih =>
    intro l hall hpw
    have hx : l < x := hall x (by simp)
    rcases List.pairwise_cons.mp hpw with ⟨hx_rest, hpw_rest⟩
    simp only [acceptsAll, seqStep_accept_of_lt l x hx, Bool.true_and]
    exact ih x hx_rest hpw_rest

theorem acceptsAll_pairwise (xs : List Int) (h : List.Pairwise (· < ·) xs) :
    acceptsAll none xs = true := by
  cases xs with
  | nil => rfl
  | cons x rest =>
    rcases List.pairwise_cons.mp h with ⟨hall, hrest⟩
    simp only [acceptsAll, seqStep, Bool.true_and]
    exact acceptsAll_of_forall_lt rest x hall hrest

theorem read_i64_be_roundtrip (id : Int) (rest : List Byte)
    (h1 : -(2 ^ 63) ≤ id) (h2 : id < 2 ^ 63) :
    read_i64_be (i64ToBeBytes id ++ rest) = id := by
  have hm0 : (0 : Int) ≤ id % 2 ^ 64 := Int.emod_nonneg id (by norm_num)
  have hmlt : id % 2 ^ 64 < 2 ^ 64 := Int.emod_lt_of_pos id (by norm_num)
  have hcast : (((id % (2 ^ 64 : Int)).toNat : Nat) : Int) = id % 2 ^ 64 :=
    Int.toNat_of_nonneg hm0
  have hult : (id % (2 ^ 64 : Int)).toNat < 2 ^ 64 := by omega
  have g0 : (i64ToBeBytes id ++ rest).getD 0 0 = (id % (2 ^ 64 : Int)).toNat / 2 ^ 56 % 256 := rfl
  have g1 : (i64ToBeBytes id ++ rest).getD 1 0 = (id % (2 ^ 64 : Int)).toNat / 2 ^ 48 % 256 := rfl
  have g2 : (i64ToBeBytes id ++ rest).getD 2 0 = (id % (2 ^ 64 : Int)).toNat / 2 ^ 40 % 256 := rfl
  have g3 : (i64ToBeBytes id ++ rest).getD 3 0 = (id % (2 ^ 64 : Int)).toNat / 2 ^ 32 % 256 := rfl
  have g4 : (i64ToBeBytes id ++ rest).getD 4 0 = (id % (2 ^ 64 : Int)).toNat / 2 ^ 24 % 256 := rfl
  have g5 : (i64ToBeBytes id ++ rest).getD 5 0 = (id % (2 ^ 64 : Int)).toNat / 2 ^ 16 % 256 := rfl
  have g6 : (i64ToBeBytes id ++ rest).getD 6 0 = (id % (2 ^ 64 : Int)).toNat / 2 ^ 8 % 256 := rfl
  have g7 : (i64ToBeBytes id ++ rest).getD 7 0 = (id % (2 ^ 64 : Int)).toNat % 256 := rfl
  rw [read_i64_be]
  rw [g0, g1, g2, g3, g4, g5, g6, g7]
  have hsum : (id % (2 ^ 64 : Int)).toNat / 2 ^ 56 % 256 * 2 ^ 56 +
      (id % (2 ^ 64 : Int)).toNat / 2 ^ 48 % 256 * 2 ^ 48 +
      (id % (2 ^ 64 : Int)).toNat / 2 ^ 40 % 256 * 2 ^ 40 +
      (id % (2 ^ 64 : Int)).toNat / 2 ^ 32 % 256 * 2 ^ 32 +
      (id % (2 ^ 64 : Int)).toNat / 2 ^ 24 % 256 * 2 ^ 24 +
      (id % (2 ^ 64 : Int)).toNat / 2 ^ 16 % 256 * 2 ^ 16 +
      (id % (2 ^ 64 : Int)).toNat / 2 ^ 8 % 256 * 2 ^ 8 +
      (id % (2 ^ 64 : Int)).toNat % 256 = (id % (2 ^ 64 : Int)).toNat := by
    omega
  rw [hsum]
  split_ifs with hlt
  · omega
  · omega

theorem vecResize_length (l : List ℚ) (n : Nat) (v : ℚ) :
    (vecResize l n v).length = n := by
  unfold vecResize
  split_ifs with h
  · simp [h]
  · simp
    omega

theorem foldl_set_map (f : Nat → ℚ) :
    ∀ (n : Nat) (l : List ℚ), n ≤ l.length →
      (List.range n).foldl (fun acc i => acc.set i (f i)) l =
        (List.range n).map f ++ l.drop n := by
  intro n
  induction n with
  | zero => intro l _; simp
  | succ n ih =>
    intro l h
    rw [List.range_succ, List.foldl_append, ih l (by omega)]
    simp only [List.foldl_cons, List.foldl_nil]
    have hmaplen : ((List.range n).map f).length = n := by simp
    rw [List.set_append, if_neg (by omega)]
    rw [hmaplen, Nat.sub_self]
    have hdrop : l.drop n = l[n] :: l.drop (n + 1) :=
      List.drop_eq_getElem_cons (by omega)
    rw [hdrop, List.set_cons_zero]
    simp [List.range_succ]

theorem foldl_append_flatMap (g : Nat → List ℚ) :
    ∀ (L : List Nat) (acc : List ℚ),
      L.foldl (fun a i => a ++ g i) acc = acc ++ L.flatMap g := by
  intro L
  induction L with
  | nil => intro acc; simp
  | cons x xs ih => intro acc; simp [ih]

theorem flatMap_range_pairSwap :
    ∀ (buf : List ℚ),
      (List.range (buf.length / 2)).flatMap
        (fun i => [buf.getD (2 * i + 1) 0, buf.getD (2 * i) 0]) = pairSwap buf := by
  intro buf
  induction buf using pairSwap.induct with
  | case1 a b rest ih =>
    have hlen : (a :: b :: rest).length / 2 = rest.length / 2 + 1 := by
      simp
      omega
    have hsh1 : ∀ i : Nat,
        (a :: b :: rest).getD (2 * Nat.succ i + 1) 0 = rest.getD (2 * i + 1) 0 := by
      intro i
      have e1 : 2 * Nat.succ i + 1 = 2 * i + 1 + 1 + 1 := by omega
      rw [e1, List.getD_cons_succ, List.getD_cons_succ]
    have hsh2 : ∀ i : Nat,
        (a :: b :: rest).getD (2 * Nat.succ i) 0 = rest.getD (2 * i) 0 := by
      intro i
      have e2 : 2 * Nat.succ i = 2 * i + 1 + 1 := by omega
      rw [e2, List.getD_cons_succ, List.getD_cons_succ]
    rw [hlen, List.range_succ_eq_map, List.flatMap_cons, List.flatMap_map]
    simp only [hsh1, hsh2, ih]
    simp [pairSwap]
  | case2 x hx =>
    match x, hx with
    | [], _ => simp [pairSwap]
    | [a], _ => simp [pairSwap]
    | a :: b :: rest, hx => exact (hx a b rest rfl).elim

theorem pairSwap_length : ∀ buf : List ℚ, (pairSwap buf).length = 2 * (buf.length / 2) := by
  intro buf
  induction buf using pairSwap.induct with
  | case1 a b rest ih =>
    simp [pairSwap, ih]
    omega
  | case2 x hx =>
    match x, hx with
    | [], _ => simp [pairSwap]
    | [a], _ => simp [pairSwap]
    | a :: b :: rest, hx => exact (hx a b rest rfl).elim

/-- C1: the claim states that after `PCMCodec::encode` returns, the output
buffer's length is exactly twice the number of input samples, for every
initial state of the caller-provided output buffer. The code appends
(`write_i16` goes through `io::Write` for `Vec<u8>`): encoding the single
sample `0.0` into an output buffer that initially holds one byte leaves a
buffer of length 3, not 2. -/
theorem c1_encode_appends :
    PCMencode [(0 : ℚ)] [0] = [0, 0, 0] ∧
    ¬(PCMencode [(0 : ℚ)] [0]).length = 2 * 1 := by
  have hmax : max (0 : ℚ) (-1) = 0 := max_eq_left (by norm_num)
  have hmin : min (0 : ℚ) 1 = 0 := min_eq_left (by norm_num)
  have h0 : encodeSampleI16 0 = 0 := by
    simp [encodeSampleI16, hmax, hmin, truncQ]
  have h2 : i16ToLeBytes 0 = [0, 0] := by decide
  have h1 : PCMencode [(0 : ℚ)] [0] = [0, 0, 0] := by
    simp [PCMencode, h0, h2]
  exact ⟨h1, by rw [h1]; decide⟩

/-- C2: starting the sender counter at `i64::MAX - 20`, the five
transmitted ids are accepted by a fresh receive-side filter, the counter
ends at -2 by the wraparound rule, and a replay of any of the five ids
against the resulting filter state is rejected; moreover from the initial
counter value -1 the ids increment by 1 per packet. -/
theorem c2_rollover_scenario :
    idsFrom (-1) 3 = [-1, 0, 1] ∧
    counterAfter (i64MaxVal - 20) 5 = -2 ∧
    acceptsAll none (idsFrom (i64MaxVal - 20) 5) = true ∧
    (idsFrom (i64MaxVal - 20) 5).all
      (fun id => !(seqStep (seqStateAfter none (idsFrom (i64MaxVal - 20) 5)) id).1) = true := by
  refine ⟨by decide, by decide, by decide, by decide⟩

/-- C6: the jitter buffer is an exact FIFO. `popInto` returns the first
`n` queued samples in order, pads any shortfall with silence and reports
the number of real samples; popping the length of `s` after pushing `s`
into an empty buffer returns exactly `s`; popping from an empty buffer
yields all zeroes and reports zero real samples. -/
theorem c6_jitter_fifo :
    (∀ (q : List ℚ) (n : Nat),
      popInto q n = (q.take n ++ List.replicate (n - q.length) 0, q.drop n, min n q.length)) ∧
    (∀ s : List ℚ, popInto (pushSamples [] s) s.length = (s, [], s.length)) ∧
    (∀ n : Nat, popInto [] n = (List.replicate n 0, [], 0)) := by
  refine ⟨popInto_eq, ?_, ?_⟩
  · intro s
    simp [popInto_eq, pushSamples]
  · intro n
    simp [popInto_eq]

/-- C9: a datagram whose first two bytes are not the magic 13, 37
(0x0D 0x25) leaves the entire receive-side state untouched: the filter's
last accepted id, the decode buffer and the jitter buffer are all
unchanged, and the loop continues. -/
theorem c9_bad_magic_no_mutation (pacer stereo_swap : Bool) (st : RxState)
    (receive_buffer : List Byte) (recv_bytes : Nat)
    (h : ¬(receive_buffer.getD 0 0 = 13 ∧ receive_buffer.getD 1 0 = 37)) :
    recvStep pacer stereo_swap st receive_buffer recv_bytes = st := by
  unfold recvStep
  rw [if_neg h]

theorem c9_bad_magic_no_mutation_witness :
    recvStep true false ⟨some 5, [1], [2, 3]⟩ [7, 37, 1, 2] 4 = ⟨some 5, [1], [2, 3]⟩ :=
  c9_bad_magic_no_mutation true false ⟨some 5, [1], [2, 3]⟩ [7, 37, 1, 2] 4 (by decide)

theorem seqStep_reject_snd (o : Option Int) (x : Int) (h : (seqStep o x).1 = false) :
    (seqStep o x).2 = o := by
  cases o with
  | none => simp [seqStep] at h
  | some l =>
    simp only [seqStep] at h ⊢
    split_ifs at h ⊢
    all_goals simp_all

theorem recvStep_skip_of_reject (sw : Bool) (st : RxState) (buffer : List Byte) (n : Nat)
    (hrej : (seqStep st.last_recv_id (read_i64_be (buffer.drop SIGNATURE_SIZE))).1 = false) :
    recvStep true sw st buffer n = st := by
  unfold recvStep
  by_cases hmagic : buffer.getD 0 0 = 13 ∧ buffer.getD 1 0 = 37
  · rw [if_pos hmagic]
    simp [hrej, seqStep_reject_snd _ _ hrej]
  · rw [if_neg hmagic]

/-- C3: behaviour of the receiver's duplicate/stale filter. The first id is
always accepted and recorded; against a recorded id `l`, an id `x` is
accepted iff `l < x` or (`0 ≤ l` and `x < 0`), and the recorded id becomes
`x` on acceptance and stays `l` on rejection; a strictly increasing id
sequence is fully accepted from a fresh filter; a duplicate of an accepted
negative rollover id is rejected; and a rejected id makes the receive loop
skip the packet entirely, before decoding, leaving all receive-side state
unchanged. -/
theorem c3_sequence_filter :
    (∀ x : Int, seqStep none x = (true, some x)) ∧
    (∀ l x : Int, (seqStep (some l) x).1 = true ↔ (l < x ∨ (0 ≤ l ∧ x < 0))) ∧
    (∀ l x : Int, ¬(l < x ∨ (0 ≤ l ∧ x < 0)) → seqStep (some l) x = (false, some l)) ∧
    (∀ xs : List Int, List.Pairwise (· < ·) xs → acceptsAll none xs = true) ∧
    (∀ x : Int, x < 0 → (seqStep (some x) x).1 = false) ∧
    (∀ (sw : Bool) (st : RxState) (buffer : List Byte) (n : Nat),
      (seqStep st.last_recv_id (read_i64_be (buffer.drop SIGNATURE_SIZE))).1 = false →
      recvStep true sw st buffer n = st) := by
  refine ⟨fun x => rfl, ?_, ?_, acceptsAll_pairwise, ?_, recvStep_skip_of_reject⟩
  · intro l x
    simp only [seqStep]
    split_ifs with hA hB
    all_goals simp
    all_goals omega
  · intro l x h
    simp only [seqStep]
    rw [if_neg (by omega), if_neg (by omega)]
  · intro x hx
    simp only [seqStep]
    rw [if_neg (by omega), if_neg (by omega)]

theorem c3_sequence_filter_witness :
    acceptsAll none [1, 5, 9] = true ∧ (seqStep (some (-4)) (-4)).1 = false := by
  obtain ⟨-, -, -, h4, h5, -⟩ := c3_sequence_filter
  exact ⟨h4 [1, 5, 9] (by decide), h5 (-4) (by decide)⟩

/-- C5: round trip of the wire framing with pacing enabled. Building a
packet (magic bytes 13, 37, then the id as 8 big-endian bytes, then the
payload) and parsing it back on the receive side recovers exactly the id
and the payload, for every representable `i64` id and every payload. -/
theorem c5_packet_round_trip (id : Int) (payload : List Byte)
    (h1 : -(2 ^ 63) ≤ id) (h2 : id < 2 ^ 63) :
    parsePacket (buildPacket id payload) (SIGNATURE_SIZE + ID_SIZE + payload.length) =
      some (id, payload) := by
  have hb : buildPacket id payload = 13 :: 37 :: (i64ToBeBytes id ++ payload) := by
    simp [buildPacket, add_packet_id, add_signature]
  rw [parsePacket, hb]
  rw [if_pos ⟨rfl, rfl⟩]
  have hlen8 : (i64ToBeBytes id).length = 8 := rfl
  have htake : (13 :: 37 :: (i64ToBeBytes id ++ payload)).take
      (SIGNATURE_SIZE + ID_SIZE + payload.length) =
      13 :: 37 :: (i64ToBeBytes id ++ payload) := by
    apply List.take_of_length_le
    simp [hlen8, SIGNATURE_SIZE, ID_SIZE]
    omega
  rw [htake]
  have hdrop : (13 :: 37 :: (i64ToBeBytes id ++ payload)).drop (SIGNATURE_SIZE + ID_SIZE) =
      payload := by
    show (i64ToBeBytes id ++ payload).drop 8 = payload
    rw [← hlen8, List.drop_left]
  rw [hdrop]
  have hid : read_i64_be ((13 :: 37 :: (i64ToBeBytes id ++ payload)).drop SIGNATURE_SIZE) = id := by
    show read_i64_be (i64ToBeBytes id ++ payload) = id
    exact read_i64_be_roundtrip id payload h1 h2
  rw [hid]

theorem c5_packet_round_trip_witness :
    parsePacket (buildPacket (-3) [7, 8]) (SIGNATURE_SIZE + ID_SIZE + [7, 8].length) =
      some (-3, [7, 8]) :=
  c5_packet_round_trip (-3) [7, 8] (by norm_num) (by norm_num)

theorem txSample_mid (frame : Nat) (sw : Bool) (st : TxState) (s : ℚ)
    (h : st.buffer_pos + 1 < frame) :
    (txProcessSample frame sw st s).buffer_pos = st.buffer_pos + 1 ∧
    (txProcessSample frame sw st s).sends = st.sends := by
  simp only [txProcessSample]
  split_ifs with h1 h2 <;> simp_all
  all_goals omega

theorem txSample_fill (frame : Nat) (sw : Bool) (st : TxState) (s : ℚ)
    (hpos : st.buffer_pos + 1 = frame) :
    (txProcessSample frame sw st s).buffer_pos = 0 ∧
    (txProcessSample frame sw st s).sends = st.sends + 1 := by
  simp only [txProcessSample]
  split_ifs with h1 h2 <;> simp_all

theorem txBatch_no_fill (frame : Nat) (sw : Bool) :
    ∀ (data : List ℚ) (st : TxState), st.buffer_pos + data.length < frame →
      (txProcessBatch frame sw st data).buffer_pos = st.buffer_pos + data.length ∧
      (txProcessBatch frame sw st data).sends = st.sends := by
  intro data
  induction data with
  | nil => intro st _; simp [txProcessBatch]
  | cons d rest ih =>
    intro st h
    have hstep : txProcessBatch frame sw st (d :: rest) =
        txProcessBatch frame sw (txProcessSample frame sw st d) rest := rfl
    rw [hstep]
    have h1 : st.buffer_pos + 1 < frame := by
      simp only [List.length_cons] at h
      omega
    have hmid := txSample_mid frame sw st d h1
    have h2 : (txProcessSample frame sw st d).buffer_pos + rest.length < frame := by
      rw [hmid.1]
      simp only [List.length_cons] at h
      omega
    have hr := ih (txProcessSample frame sw st d) h2
    refine ⟨?_, ?_⟩
    · rw [hr.1, hmid.1]
      simp only [List.length_cons]
      omega
    · rw [hr.2, hmid.2]

theorem txBatch_fill (frame : Nat) (sw : Bool) :
    ∀ (data : List ℚ) (st : TxState), data ≠ [] → st.buffer_pos + data.length = frame →
      (txProcessBatch frame sw st data).buffer_pos = 0 ∧
      (txProcessBatch frame sw st data).sends = st.sends + 1 := by
  intro data
  induction data with
  | nil => intro st h _; exact absurd rfl h
  | cons d rest ih =>
    intro st _ hlen
    have hstep : txProcessBatch frame sw st (d :: rest) =
        txProcessBatch frame sw (txProcessSample frame sw st d) rest := rfl
    rw [hstep]
    cases rest with
    | nil =>
      have hfill := txSample_fill frame sw st d (by simp only [List.length_cons, List.length_nil] at hlen; omega)
      simpa [txProcessBatch] using hfill
    | cons e rest2 =>
      have h1 : st.buffer_pos + 1 < frame := by
        simp only [List.length_cons] at hlen
        omega
      have hmid := txSample_mid frame sw st d h1
      have hr := ih (txProcessSample frame sw st d) (by simp)
        (by rw [hmid.1]; simp only [List.length_cons] at hlen ⊢; omega)
      refine ⟨hr.1, ?_⟩
      rw [hr.2, hmid.2]

/-- C7: with frame size 480 and 2 channels (frame length 960 samples),
three successive capture batches of 320 samples trigger exactly one
encode-and-send, during the third batch and none before, and the write
cursor is zero afterwards. Stated for arbitrary batch contents, arbitrary
initial accumulator contents and either stereo-swap setting. -/
theorem c7_frame_accumulation (sw : Bool) (buf0 b1 b2 b3 : List ℚ)
    (h1 : b1.length = 320) (h2 : b2.length = 320) (h3 : b3.length = 320) :
    (txProcessBatch (480 * 2) sw ⟨buf0, 0, 0⟩ b1).sends = 0 ∧
    (txProcessBatch (480 * 2) sw (txProcessBatch (480 * 2) sw ⟨buf0, 0, 0⟩ b1) b2).sends = 0 ∧
    (txProcessBatch (480 * 2) sw (txProcessBatch (480 * 2) sw
      (txProcessBatch (480 * 2) sw ⟨buf0, 0, 0⟩ b1) b2) b3).sends = 1 ∧
    (txProcessBatch (480 * 2) sw (txProcessBatch (480 * 2) sw
      (txProcessBatch (480 * 2) sw ⟨buf0, 0, 0⟩ b1) b2) b3).buffer_pos = 0 := by
  have r1 := txBatch_no_fill (480 * 2) sw b1 ⟨buf0, 0, 0⟩ (by simp [h1])
  have r2 := txBatch_no_fill (480 * 2) sw b2 (txProcessBatch (480 * 2) sw ⟨buf0, 0, 0⟩ b1)
    (by rw [r1.1]; simp [h1, h2])
  have hb3 : b3 ≠ [] := by
    intro hnil
    rw [hnil] at h3
    simp at h3
  have r3 := txBatch_fill (480 * 2) sw b3
    (txProcessBatch (480 * 2) sw (txProcessBatch (480 * 2) sw ⟨buf0, 0, 0⟩ b1) b2)
    hb3 (by rw [r2.1, r1.1]; simp [h1, h2, h3])
  refine ⟨?_, ?_, ?_, r3.1⟩
  · rw [r1.2]
  · rw [r2.2, r1.2]
  · rw [r3.2, r2.2, r1.2]

theorem c7_frame_accumulation_witness :
    (txProcessBatch (480 * 2) false (txProcessBatch (480 * 2) false
      (txProcessBatch (480 * 2) false ⟨List.replicate 960 0, 0, 0⟩ (List.replicate 320 0))
      (List.replicate 320 0)) (List.replicate 320 0)).sends = 1 :=
  (c7_frame_accumulation false (List.replicate 960 0) (List.replicate 320 0)
    (List.replicate 320 0) (List.replicate 320 0)
    (List.length_replicate 320 0) (List.length_replicate 320 0)
    (List.length_replicate 320 0)).2.2.1

/-- C8: `PCMCodec::decode` never rejects a call because of output-buffer
size: for every input byte string and every initial output buffer it
returns success, with the output auto-resized to `input.len() / 2` entries
where entry `i2` is the little-endian signed 16-bit sample at byte offset
`2*i2` divided by 32767 and clamped to `[-1, 1]`. -/
theorem c8_decode_auto_resize (input : List Byte) (output : List ℚ) :
    PCMdecode input output =
      Except.ok ((List.range (input.length / 2)).map (decodeSampleAt input)) := by
  simp only [PCMdecode]
  by_cases h : output.length = input.length / 2
  · rw [if_neg (by simp [h])]
    rw [foldl_set_map (decodeSampleAt input) (input.length / 2) output (by omega)]
    rw [List.drop_eq_nil_of_le (by omega)]
    simp
  · rw [if_pos h]
    rw [foldl_set_map (decodeSampleAt input) (input.length / 2) _
      (by rw [vecResize_length])]
    rw [List.drop_eq_nil_of_le (by rw [vecResize_length])]
    simp

/-- C10: with stereo swap enabled, pushing a decoded buffer of `n` samples
into the jitter buffer appends exactly the consecutive pairs in swapped
order: the enqueued block is `pairSwap` of the buffer, whose length is
`2 * (n / 2)`, so for odd `n` the final sample is dropped and never
reaches playback. -/
theorem c10_swap_push (q buf : List ℚ) :
    pushSamplesSwapped q buf = q ++ pairSwap buf ∧
    (pairSwap buf).length = 2 * (buf.length / 2) := by
  refine ⟨?_, pairSwap_length buf⟩
  rw [pushSamplesSwapped]
  have hfn : (fun (acc : List ℚ) (i : Nat) =>
      acc ++ [buf.getD (2 * i + 1) 0] ++ [buf.getD (2 * i) 0]) =
      fun acc i => acc ++ [buf.getD (2 * i + 1) 0, buf.getD (2 * i) 0] := by
    funext acc i
    simp
  rw [hfn, foldl_append_flatMap (fun i => [buf.getD (2 * i + 1) 0, buf.getD (2 * i) 0])
    (List.range (buf.length / 2)) q]
  rw [flatMap_range_pairSwap buf]

end Airwire
